import Mathlib

/-!
Verification of the core helpers of `node-utils` (`src/commonHelpers/index.ts`):
the AES-256-GCM string codec (`aesEncryptData` / `aesDecryptData`) and the
concurrent keyed record engine (`isPromise` / `promiseAllRecord`) together with
the bulk wrappers (`bulkAesEncrypt` / `bulkAesDecrypt`).

Modelling conventions:
* JavaScript strings are modelled by their UTF-8 byte sequences (`List Nat`,
  each byte `< 256`).  A JS string is falsy exactly when it is empty, i.e. the
  byte list is `[]`.
* `Buffer` values are byte lists; `Buffer.concat` is `++`; `subarray` is
  `take` / `drop` with the same clamping rules as JavaScript.
* Node's `base64url` text encoding (URL-safe alphabet, no padding) is modelled
  executably below (`b64urlEncode` / `b64urlDecode`).
* The AES-256-GCM primitive itself (an external library, not repository code)
  is modelled by its structural interface `GCMPrim`: GCM is counter-mode
  encryption (ciphertext = plaintext XOR a keystream determined by key and
  nonce, so ciphertext length = plaintext length) together with a 16-byte
  authentication tag determined by key, nonce and ciphertext; decryption
  recomputes the tag, compares it with the stored tag and throws on mismatch.
* Exceptions are modelled with `Except`; a JS function that may either return
  `null`, return a value, or throw is modelled as `Option (Except ε α)` where
  `none` is the `null` return.
-/

/-- The URL-safe base64 alphabet used by Node's `base64url` encoding:
`A`-`Z`, `a`-`z`, `0`-`9`, `-`, `_` (as ASCII codes). -/
def b64CharTable : List Nat :=
  [65, 66, 67, 68, 69, 70, 71, 72, 73, 74, 75, 76, 77, 78, 79, 80, 81, 82,
   83, 84, 85, 86, 87, 88, 89, 90,
   97, 98, 99, 100, 101, 102, 103, 104, 105, 106, 107, 108, 109, 110, 111,
   112, 113, 114, 115, 116, 117, 118, 119, 120, 121, 122,
   48, 49, 50, 51, 52, 53, 54, 55, 56, 57, 45, 95]

/-- Character (ASCII code) for a sextet value `0 ≤ x < 64`. -/
def b64Char (x : Nat) : Nat := b64CharTable.getD x 0

/-- Sextet value of a character; `none` for characters outside the alphabet
(Node's base64 decoder ignores such characters). -/
def b64Val (c : Nat) : Option Nat := b64CharTable.findIdx? (fun d => d = c)

/-- Byte triples to sextet quadruples, with the unpadded final chunk rules of
base64 (1 trailing byte → 2 chars, 2 trailing bytes → 3 chars). -/
def bytesToSextets : List Nat → List Nat
  | [] => []
  | [a] => [a / 4, a % 4 * 16]
  | [a, b] => [a / 4, a % 4 * 16 + b / 16, b % 16 * 4]
  | a :: b :: c :: rest =>
      a / 4 :: (a % 4 * 16 + b / 16) :: (b % 16 * 4 + c / 64) :: c % 64 ::
        bytesToSextets rest

/-- Sextet quadruples back to byte triples (2 trailing chars → 1 byte,
3 trailing chars → 2 bytes, a single leftover char decodes to nothing). -/
def sextetsToBytes : List Nat → List Nat
  | [] => []
  | [_] => []
  | [c1, c2] => [c1 * 4 + c2 / 16]
  | [c1, c2, c3] => [c1 * 4 + c2 / 16, c2 % 16 * 16 + c3 / 4]
  | c1 :: c2 :: c3 :: c4 :: rest =>
      (c1 * 4 + c2 / 16) :: (c2 % 16 * 16 + c3 / 4) :: (c3 % 4 * 64 + c4) ::
        sextetsToBytes rest

/-- `Buffer.prototype.toString('base64url')`: bytes to URL-safe base64 text
without padding (text is again a byte list of ASCII codes). -/
def b64urlEncode (bytes : List Nat) : List Nat := (bytesToSextets bytes).map b64Char

/-- `Buffer.from(text, 'base64url')`: characters outside the alphabet are
ignored, then sextets are packed back into bytes. -/
def b64urlDecode (text : List Nat) : List Nat := sextetsToBytes (text.filterMap b64Val)

/-- Structural model of the AES-256-GCM primitive (Node `crypto`, external to
the repository): a keystream (counter mode) indexed by key, nonce and byte
position, and a 16-byte authentication tag determined by key, nonce and
ciphertext. -/
structure GCMPrim where
  keystream : List Nat → List Nat → Nat → Nat
  tag : List Nat → List Nat → List Nat → List Nat
  keystream_lt : ∀ key iv i, keystream key iv i < 256
  tag_length : ∀ key iv ct, (tag key iv ct).length = 16
  tag_lt : ∀ key iv ct, ∀ b ∈ tag key iv ct, b < 256

/-- Counter-mode byte stream XOR, starting at stream position `i`. -/
def ctrXorFrom (ks : Nat → Nat) : Nat → List Nat → List Nat
  | _, [] => []
  | i, b :: rest => (b ^^^ ks i) :: ctrXorFrom ks (i + 1) rest

/-- Counter-mode encryption/decryption: XOR the data with the keystream. -/
def ctrXor (ks : Nat → Nat) (l : List Nat) : List Nat := ctrXorFrom ks 0 l

/-- Errors thrown by the Node crypto layer. -/
inductive CryptoError where
  | invalidKeyLength
  | invalidIV
  | invalidTagLength
  | authFailed
  | typeError
deriving DecidableEq, Repr

/-- Embedding of `aesEncryptData` (src/commonHelpers/index.ts:324-331).
`iv` is the value returned by `randomBytes(12)` for this call (randomness is
an explicit input).  `none` models the `null` return on falsy arguments;
`Except.error` models a thrown exception (`createCipheriv` rejects keys that
are not exactly 32 bytes). -/
def aesEncryptData (G : GCMPrim) (iv string key : List Nat) :
    Option (Except CryptoError (List Nat)) :=
  if string = [] ∨ key = [] then none
  else some <|
    if key.length = 32 then
      let ct := ctrXor (G.keystream key iv) string
      .ok (b64urlEncode (iv ++ ct ++ G.tag key iv ct))
    else .error .invalidKeyLength

/-- `buffer.subarray(0, 12)` of the decoded blob: the nonce slice. -/
def decryptNonce (encryptedString : List Nat) : List Nat :=
  (b64urlDecode encryptedString).take 12

/-- `buffer.subarray(-16)` of the decoded blob: the stored tag slice (the
whole buffer when it is shorter than 16 bytes, as in JavaScript). -/
def decryptStoredTag (encryptedString : List Nat) : List Nat :=
  (b64urlDecode encryptedString).drop ((b64urlDecode encryptedString).length - 16)

/-- `buffer.subarray(12, -16)` of the decoded blob: the ciphertext slice
(empty when the buffer is shorter than 28 bytes, as in JavaScript). -/
def decryptCiphertext (encryptedString : List Nat) : List Nat :=
  ((b64urlDecode encryptedString).drop 12).take
    ((b64urlDecode encryptedString).length - 28)

/-- Tag recomputed by GCM decryption over the received nonce and ciphertext. -/
def recomputedTag (G : GCMPrim) (encryptedString key : List Nat) : List Nat :=
  G.tag key (decryptNonce encryptedString) (decryptCiphertext encryptedString)

/-- GCM tag lengths accepted by Node's `setAuthTag` when no explicit
`authTagLength` was configured: 128..96 bits, 64 bits or 32 bits. -/
def tagLengthOk (n : Nat) : Bool :=
  n = 16 || n = 15 || n = 14 || n = 13 || n = 12 || n = 8 || n = 4

/-- Embedding of `aesDecryptData` (src/commonHelpers/index.ts:354-360).
Mirrors the source: base64url-decode, slice `subarray(0,12)` as IV,
`subarray(-16)` as the stored tag, `subarray(12,-16)` as the ciphertext
(all with JavaScript's clamping), then decrypt with tag verification.
`createDecipheriv` rejects keys that are not 32 bytes and an empty IV;
`setAuthTag` rejects invalid GCM tag lengths; `final()` compares the stored
tag against the recomputed tag truncated to that length and throws on
mismatch, otherwise the concatenated `update`/`final` output is the
counter-mode decryption of the ciphertext slice. -/
def aesDecryptData (G : GCMPrim) (encryptedString key : List Nat) :
    Option (Except CryptoError (List Nat)) :=
  if encryptedString = [] ∨ key = [] then none
  else some <|
    if key.length ≠ 32 then .error .invalidKeyLength
    else if decryptNonce encryptedString = [] then .error .invalidIV
    else if tagLengthOk (decryptStoredTag encryptedString).length then
      if (recomputedTag G encryptedString key).take
            (decryptStoredTag encryptedString).length =
          decryptStoredTag encryptedString then
        .ok (ctrXor (G.keystream key (decryptNonce encryptedString))
              (decryptCiphertext encryptedString))
      else .error .authFailed
    else .error .invalidTagLength

/-- A concrete GCM primitive used to evaluate the theorems on closed inputs
(the theorems hold for every primitive; witnesses need an executable one). -/
def testGCM : GCMPrim where
  keystream := fun _ _ _ => 170
  tag := fun _ _ _ => List.replicate 16 7
  keystream_lt := by
    intro k i j
    show (170 : Nat) < 256
    decide
  tag_length := fun _ _ _ => by simp
  tag_lt := fun _ _ _ b hb => by
    rw [List.eq_of_mem_replicate hb]
    omega

/-- Errors flowing through the transform engine: the engine's own
`Error('Invalid input')`, errors thrown by the Node crypto layer, and
arbitrary user errors (identified by a tag, since JS compares errors by
identity). -/
inductive JErr where
  | invalidInput
  | crypto (e : CryptoError)
  | user (tag : Nat)
deriving DecidableEq, Repr

/-- JavaScript values as classified by the engine: `null`/`undefined`
(nullish, falsy, no `then`), strings (as UTF-8 bytes; no `then` property),
other plain values with no truthy `then` (with their truthiness recorded),
objects carrying a truthy but non-callable `then` property, and genuine
thenables whose callable `then` settles with the given outcome (fulfilling
with a value or rejecting with an error). -/
inductive JVal where
  | vNull
  | vStr (s : List Nat)
  | base (truthy : Bool) (tag : Nat)
  | fakeThenable (tag : Nat)
  | thenable (oc : Except JErr JVal)

/-- Embedding of `isPromise` (src/commonHelpers/index.ts:268-270):
`!!obj?.then` — true exactly when the value is non-nullish and its `then`
property is truthy. -/
def isPromise : JVal → Bool
  | .fakeThenable _ => true
  | .thenable _ => true
  | _ => false

/-- How `Promise.resolve(v)` eventually settles: a callable thenable adopts
its outcome (recursively, as promise resolution does); every other value —
including an object with a truthy non-callable `then` — fulfils with the
value itself. -/
def settle : JVal → Except JErr JVal
  | .thenable (.error e) => .error e
  | .thenable (.ok v) => settle v
  | .vNull => .ok .vNull
  | .vStr s => .ok (.vStr s)
  | .base t n => .ok (.base t n)
  | .fakeThenable n => .ok (.fakeThenable n)

/-- JavaScript property assignment `results[key] = value` on an object
modelled as an insertion-ordered association list. -/
def jsSet : List (String × JVal) → String → JVal → List (String × JVal)
  | [], k, v => [(k, v)]
  | (k', v') :: rest, k, v =>
      if k' = k then (k, v) :: rest else (k', v') :: jsSet rest k v

/-- The synchronous executor phase of `promiseAllRecord`
(src/commonHelpers/index.ts:292-304): `entries.forEach` classifies each value
with `isPromise`, throws `Error('Invalid input')` when a non-promise value
arrives and no transform was supplied (aborting the loop, so that entry's
work is never launched and later entries are not processed at all), otherwise
launches `Promise.resolve` of the value itself (if a promise) or of the
transform's return value.  A transform that throws synchronously also aborts
the loop with its error.  The entry position is passed to the transform
wrapper so closures over stateful resources (the random source consumed per
call in `bulkAesEncrypt`) can be modelled; `promiseAllRecord` itself ignores
it.  `Except.error` is an exception escaping the executor; `Except.ok` is the
launched computations with their eventual settlements, in entry order. -/
def launchIdx (f : Option (Nat → JVal → Except JErr JVal)) :
    Nat → List (String × JVal) → Except JErr (List (String × Except JErr JVal))
  | _, [] => .ok []
  | i, (k, v) :: rest =>
    if isPromise v then
      (launchIdx f (i + 1) rest).map (fun L => (k, settle v) :: L)
    else
      match f with
      | none => .error .invalidInput
      | some g =>
        match g i v with
        | .error e => .error e
        | .ok r => (launchIdx f (i + 1) rest).map (fun L => (k, settle r) :: L)

/-- Observable state of the promise returned by `promiseAllRecord` after a
given sequence of settlement callbacks has run: resolved with a record,
rejected with an error, or still pending. -/
inductive POutcome where
  | resolved (m : List (String × JVal))
  | rejected (e : JErr)
  | pending

/-- The asynchronous phase of `promiseAllRecord`: the `.then`/`.catch`
callbacks of the launched computations run in the order given by `order`
(indices into the launched list; each promise settles at most once, so in a
real execution `order` is duplicate-free).  A success stores its result under
the entry's key and increments `completed`, resolving once `completed` equals
the entry count; a failure calls `reject` with the entry's error immediately.
The promise keeps the first resolution/rejection; if the callbacks run out
before either happens it is still pending (forever, if nothing is left). -/
def runCallbacks (L : List (String × Except JErr JVal)) :
    List Nat → List (String × JVal) → Nat → POutcome
  | [], _, _ => .pending
  | i :: rest, results, completed =>
    match L[i]? with
    | none => runCallbacks L rest results completed
    | some (_, .error e) => .rejected e
    | some (k, .ok v) =>
      if completed + 1 = L.length then .resolved (jsSet results k v)
      else runCallbacks L rest (jsSet results k v) (completed + 1)

/-- Embedding of `promiseAllRecord` (src/commonHelpers/index.ts:283-306).
An exception thrown inside the executor is caught by the `Promise`
constructor and rejects the returned promise before any settlement callback
can run; otherwise the promise's state is determined by the callbacks that
have run so far (`order`). -/
def promiseAllRecord (object : List (String × JVal))
    (functionToCall : Option (JVal → Except JErr JVal))
    (order : List Nat) : POutcome :=
  match launchIdx (functionToCall.map (fun g _ v => g v)) 0 object with
  | .error e => .rejected e
  | .ok L => runCallbacks L order [] 0

/-- `promisifiedAesEncryptData value key` for one value (`promisify` wraps the
synchronous call in a promise: it fulfils with the returned value — `null` for
falsy inputs, the blob otherwise — and rejects if it throws).  `iv` is this
call's `randomBytes(12)` output.  Non-string truthy values reach
`createCipheriv` (which validates the key first) and then make
`cipher.update` throw. -/
def promisifiedAesEncryptData (G : GCMPrim) (iv key : List Nat) : JVal → JVal :=
  fun v => .thenable <|
    match v with
    | .vStr s =>
      match aesEncryptData G iv s key with
      | none => .ok .vNull
      | some (.ok blob) => .ok (.vStr blob)
      | some (.error e) => .error (.crypto e)
    | .vNull => .ok .vNull
    | .base false _ => .ok .vNull
    | _ =>
      .error (.crypto (if key.length = 32 then .typeError else .invalidKeyLength))

/-- `promisifiedAesDecryptData value key` for one value; non-string truthy
values make `Buffer.from` throw. -/
def promisifiedAesDecryptData (G : GCMPrim) (key : List Nat) : JVal → JVal :=
  fun v => .thenable <|
    match v with
    | .vStr s =>
      match aesDecryptData G s key with
      | none => .ok .vNull
      | some (.ok pt) => .ok (.vStr pt)
      | some (.error e) => .error (.crypto e)
    | .vNull => .ok .vNull
    | .base false _ => .ok .vNull
    | _ => .error (.crypto .typeError)

/-- Embedding of `bulkAesEncrypt` (src/commonHelpers/index.ts:345-348):
`promiseAllRecord` of the object with the promisified encrypt as transform.
`tape i` is the `randomBytes(12)` output consumed by the call made for entry
`i` (the ambient randomness made explicit per entry). -/
def bulkAesEncrypt (G : GCMPrim) (tape : Nat → List Nat)
    (object : List (String × JVal)) (key : List Nat)
    (order : List Nat) : POutcome :=
  match launchIdx
      (some fun i v => .ok (promisifiedAesEncryptData G (tape i) key v))
      0 object with
  | .error e => .rejected e
  | .ok L => runCallbacks L order [] 0

/-- Embedding of `bulkAesDecrypt` (src/commonHelpers/index.ts:368-371). -/
def bulkAesDecrypt (G : GCMPrim) (object : List (String × JVal))
    (key : List Nat) (order : List Nat) : POutcome :=
  promiseAllRecord object (some fun v => .ok (promisifiedAesDecryptData G key v))
    order

/-- Value of a successful settlement (`vNull` as an unused default). -/
def okD : Except JErr JVal → JVal
  | .ok v => v
  | .error _ => .vNull

/-- Record entry contributed by launched computation `j` once it settles
successfully (defaults are unused: invariants guarantee `j` is in range and
settled successfully wherever this appears). -/
def entryAt (L : List (String × Except JErr JVal)) (j : Nat) : String × JVal :=
  match L[j]? with
  | some (k, oc) => (k, okD oc)
  | none => ("", .vNull)

/-- Launched computations of `bulkAesEncrypt` over a record of plain values,
starting at entry position `i`. -/
def encLaunched (G : GCMPrim) (tape : Nat → List Nat) (key : List Nat) :
    Nat → List (String × JVal) → List (String × Except JErr JVal)
  | _, [] => []
  | i, (k, v) :: rest =>
      (k, settle (promisifiedAesEncryptData G (tape i) key v)) ::
        encLaunched G tape key (i + 1) rest

/-- Launched computations of `bulkAesDecrypt` over a record of plain values. -/
def decLaunched (G : GCMPrim) (key : List Nat) :
    List (String × JVal) → List (String × Except JErr JVal)
  | [] => []
  | (k, v) :: rest =>
      (k, settle (promisifiedAesDecryptData G key v)) :: decLaunched G key rest

/-- Value a string field is mapped to by `bulkAesEncrypt`: `null` for the
falsy empty string, the blob otherwise (the error case cannot occur for a
32-byte key). -/
def encFieldValue (G : GCMPrim) (iv key s : List Nat) : JVal :=
  match aesEncryptData G iv s key with
  | none => .vNull
  | some (.ok blob) => .vStr blob
  | some (.error _) => .vNull

/-- Decoding a character of the alphabet recovers its sextet value. -/
theorem b64Val_b64Char : ∀ x < 64, b64Val (b64Char x) = some x := by decide

/-- Alphabet characters are URL-safe: in the alphabet, and none of them is
`=` (61), `+` (43) or `/` (47). -/
theorem b64Char_urlSafe :
    ∀ x < 64, (b64Val (b64Char x)).isSome ∧ b64Char x ≠ 61 ∧ b64Char x ≠ 43 ∧
      b64Char x ≠ 47 := by decide

/-- Sextets produced from bytes are `< 64`. -/
theorem bytesToSextets_lt (l : List Nat) (h : ∀ b ∈ l, b < 256) :
    ∀ x ∈ bytesToSextets l, x < 64 := by
  match l with
  | [] => simp [bytesToSextets]
  | [a] =>
    have ha := h a (by simp)
    intro x hx
    simp only [bytesToSextets, List.mem_cons, List.not_mem_nil, or_false] at hx
    rcases hx with rfl | rfl <;> omega
  | [a, b] =>
    have ha := h a (by simp)
    have hb := h b (by simp)
    intro x hx
    simp only [bytesToSextets, List.mem_cons, List.not_mem_nil, or_false] at hx
    rcases hx with rfl | rfl | rfl <;> omega
  | a :: b :: c :: rest =>
    have ha := h a (by simp)
    have hb := h b (by simp)
    have hc := h c (by simp)
    have ih := bytesToSextets_lt rest (fun x hx => h x (by simp [hx]))
    intro x hx
    simp only [bytesToSextets, List.mem_cons] at hx
    rcases hx with rfl | rfl | rfl | rfl | hx
    · omega
    · omega
    · omega
    · omega
    · exact ih x hx

/-- Unpacking the sextets of a byte list recovers the bytes. -/
theorem sextetsToBytes_bytesToSextets (l : List Nat) (h : ∀ b ∈ l, b < 256) :
    sextetsToBytes (bytesToSextets l) = l := by
  match l with
  | [] => rfl
  | [a] =>
    have ha := h a (by simp)
    simp only [bytesToSextets, sextetsToBytes, List.cons.injEq, and_true]
    omega
  | [a, b] =>
    have ha := h a (by simp)
    have hb := h b (by simp)
    simp only [bytesToSextets, sextetsToBytes, List.cons.injEq, and_true]
    omega
  | a :: b :: c :: rest =>
    have ha := h a (by simp)
    have hb := h b (by simp)
    have hc := h c (by simp)
    have ih := sextetsToBytes_bytesToSextets rest (fun x hx => h x (by simp [hx]))
    simp only [bytesToSextets]
    match hrest : bytesToSextets rest with
    | [] =>
      rw [hrest] at ih
      simp only [sextetsToBytes, List.cons.injEq] at ih ⊢
      refine ⟨by omega, by omega, by omega, ih⟩
    | [s1] =>
      rw [hrest] at ih
      simp only [sextetsToBytes, List.cons.injEq] at ih ⊢
      refine ⟨by omega, by omega, by omega, ih⟩
    | [s1, s2] =>
      rw [hrest] at ih
      simp only [sextetsToBytes, List.cons.injEq] at ih ⊢
      refine ⟨by omega, by omega, by omega, ih⟩
    | [s1, s2, s3] =>
      rw [hrest] at ih
      simp only [sextetsToBytes, List.cons.injEq] at ih ⊢
      refine ⟨by omega, by omega, by omega, ih⟩
    | s1 :: s2 :: s3 :: s4 :: more =>
      rw [hrest] at ih
      simp only [sextetsToBytes, List.cons.injEq] at ih ⊢
      refine ⟨by omega, by omega, by omega, ih⟩

/-- Re-reading the characters written for in-range sextets gives the sextets
back (no character of the alphabet is dropped by the decoder's filter). -/
theorem filterMap_b64Val_map (l : List Nat) (h : ∀ x ∈ l, x < 64) :
    (l.map b64Char).filterMap b64Val = l := by
  induction l with
  | nil => rfl
  | cons a rest ih =>
    have ha := h a (by simp)
    simp only [List.map_cons, List.filterMap_cons, b64Val_b64Char a ha]
    exact congrArg (a :: ·) (ih (fun x hx => h x (by simp [hx])))

/-- Round trip of the base64url text codec on byte lists. -/
theorem b64url_roundtrip (l : List Nat) (h : ∀ b ∈ l, b < 256) :
    b64urlDecode (b64urlEncode l) = l := by
  unfold b64urlDecode b64urlEncode
  rw [filterMap_b64Val_map _ (bytesToSextets_lt l h)]
  exact sextetsToBytes_bytesToSextets l h

/-- Encoding a nonempty byte list yields nonempty text. -/
theorem b64urlEncode_ne_nil (l : List Nat) (h : l ≠ []) : b64urlEncode l ≠ [] := by
  match l with
  | [] => exact absurd rfl h
  | [a] => simp [b64urlEncode, bytesToSextets]
  | [a, b] => simp [b64urlEncode, bytesToSextets]
  | a :: b :: c :: rest => simp [b64urlEncode, bytesToSextets]

/-- Every character of encoded text is a URL-safe alphabet character and not
`=`, `+` or `/`. -/
theorem b64urlEncode_chars (l : List Nat) (h : ∀ b ∈ l, b < 256) :
    ∀ c ∈ b64urlEncode l, (b64Val c).isSome ∧ c ≠ 61 ∧ c ≠ 43 ∧ c ≠ 47 := by
  intro c hc
  rcases List.mem_map.mp hc with ⟨x, hx, rfl⟩
  exact b64Char_urlSafe x (bytesToSextets_lt l h x hx)

/-- `ctrXorFrom` preserves length. -/
theorem ctrXorFrom_length (ks : Nat → Nat) :
    ∀ (i : Nat) (l : List Nat), (ctrXorFrom ks i l).length = l.length := by
  intro i l
  induction l generalizing i with
  | nil => rfl
  | cons b rest ih => simp [ctrXorFrom, ih]

/-- `ctrXor` preserves length. -/
theorem ctrXor_length (ks : Nat → Nat) (l : List Nat) :
    (ctrXor ks l).length = l.length := ctrXorFrom_length ks 0 l

/-- XOR-ing twice with the same keystream is the identity. -/
theorem ctrXorFrom_involution (ks : Nat → Nat) :
    ∀ (i : Nat) (l : List Nat), ctrXorFrom ks i (ctrXorFrom ks i l) = l := by
  intro i l
  induction l generalizing i with
  | nil => rfl
  | cons b rest ih =>
    simp only [ctrXorFrom, List.cons.injEq]
    exact ⟨Nat.xor_cancel_right _ _, ih (i + 1)⟩

/-- `ctrXor` is an involution. -/
theorem ctrXor_involution (ks : Nat → Nat) (l : List Nat) :
    ctrXor ks (ctrXor ks l) = l := ctrXorFrom_involution ks 0 l

/-- XOR with byte-bounded keystream keeps bytes `< 256`. -/
theorem ctrXorFrom_lt (ks : Nat → Nat) (hks : ∀ i, ks i < 256) :
    ∀ (i : Nat) (l : List Nat), (∀ b ∈ l, b < 256) →
      ∀ b ∈ ctrXorFrom ks i l, b < 256 := by
  intro i l
  induction l generalizing i with
  | nil => intro _ b hb; simp [ctrXorFrom] at hb
  | cons a rest ih =>
    intro h b hb
    simp only [ctrXorFrom, List.mem_cons] at hb
    rcases hb with rfl | hb
    · exact Nat.xor_lt_two_pow (n := 8) (h a (by simp)) (hks i)
    · exact ih (i + 1) (fun x hx => h x (by simp [hx])) b hb

/-- `ctrXor` keeps bytes `< 256`. -/
theorem ctrXor_lt (ks : Nat → Nat) (hks : ∀ i, ks i < 256) (l : List Nat)
    (h : ∀ b ∈ l, b < 256) : ∀ b ∈ ctrXor ks l, b < 256 :=
  ctrXorFrom_lt ks hks 0 l h

/-- On non-falsy inputs with a 32-byte key, `aesEncryptData` returns the
base64url encoding of `nonce ++ ciphertext ++ tag`. -/
theorem aesEncryptData_eq (G : GCMPrim) (iv p key : List Nat)
    (hp : p ≠ []) (hk : key ≠ []) (hkl : key.length = 32) :
    aesEncryptData G iv p key =
      some (.ok (b64urlEncode (iv ++ ctrXor (G.keystream key iv) p ++
        G.tag key iv (ctrXor (G.keystream key iv) p)))) := by
  simp [aesEncryptData, hp, hk, hkl]

/-- All bytes of `nonce ++ ciphertext ++ tag` are `< 256`. -/
theorem rawBlob_bytes_lt (G : GCMPrim) (iv p key : List Nat)
    (hpb : ∀ b ∈ p, b < 256) (hivb : ∀ b ∈ iv, b < 256) :
    ∀ b ∈ iv ++ ctrXor (G.keystream key iv) p ++
        G.tag key iv (ctrXor (G.keystream key iv) p), b < 256 := by
  intro b hb
  simp only [List.mem_append] at hb
  rcases hb with (hb | hb) | hb
  · exact hivb b hb
  · exact ctrXor_lt _ (fun i => G.keystream_lt key iv i) p hpb b hb
  · exact G.tag_lt key iv _ b hb

/-- Decrypting an encryption with the same key succeeds and returns the
original plaintext bytes. -/
theorem aesDecryptData_of_encrypt (G : GCMPrim) (iv p key : List Nat)
    (hk : key ≠ []) (hkl : key.length = 32) (hiv : iv.length = 12)
    (hpb : ∀ b ∈ p, b < 256) (hivb : ∀ b ∈ iv, b < 256) :
    aesDecryptData G
      (b64urlEncode (iv ++ ctrXor (G.keystream key iv) p ++
        G.tag key iv (ctrXor (G.keystream key iv) p))) key = some (.ok p) := by
  have hctlen : (ctrXor (G.keystream key iv) p).length = p.length :=
    ctrXor_length _ _
  have htglen : (G.tag key iv (ctrXor (G.keystream key iv) p)).length = 16 :=
    G.tag_length key iv _
  have hbne : iv ++ ctrXor (G.keystream key iv) p ++
      G.tag key iv (ctrXor (G.keystream key iv) p) ≠ [] := by
    intro h0
    have : (iv ++ ctrXor (G.keystream key iv) p ++
        G.tag key iv (ctrXor (G.keystream key iv) p)).length = 0 := by
      rw [h0]; rfl
    simp [List.length_append, hiv, hctlen, htglen] at this
  have hblobne : b64urlEncode (iv ++ ctrXor (G.keystream key iv) p ++
      G.tag key iv (ctrXor (G.keystream key iv) p)) ≠ [] :=
    b64urlEncode_ne_nil _ hbne
  have hdec : b64urlDecode (b64urlEncode (iv ++ ctrXor (G.keystream key iv) p ++
      G.tag key iv (ctrXor (G.keystream key iv) p))) =
      iv ++ ctrXor (G.keystream key iv) p ++
        G.tag key iv (ctrXor (G.keystream key iv) p) :=
    b64url_roundtrip _ (rawBlob_bytes_lt G iv p key hpb hivb)
  have hlen : (iv ++ ctrXor (G.keystream key iv) p ++
      G.tag key iv (ctrXor (G.keystream key iv) p)).length = 12 + p.length + 16 := by
    rw [List.length_append, List.length_append, hiv, hctlen, htglen]
  have hnonce : decryptNonce (b64urlEncode (iv ++ ctrXor (G.keystream key iv) p ++
      G.tag key iv (ctrXor (G.keystream key iv) p))) = iv := by
    unfold decryptNonce
    rw [hdec, List.append_assoc]
    exact List.take_left' hiv
  have htag : decryptStoredTag (b64urlEncode (iv ++ ctrXor (G.keystream key iv) p ++
      G.tag key iv (ctrXor (G.keystream key iv) p))) =
      G.tag key iv (ctrXor (G.keystream key iv) p) := by
    unfold decryptStoredTag
    rw [hdec, hlen]
    refine List.drop_left' ?_
    simp [List.length_append, hiv, hctlen]
  have hct : decryptCiphertext (b64urlEncode (iv ++ ctrXor (G.keystream key iv) p ++
      G.tag key iv (ctrXor (G.keystream key iv) p))) =
      ctrXor (G.keystream key iv) p := by
    unfold decryptCiphertext
    rw [hdec, hlen, List.append_assoc, List.drop_left' hiv]
    have : 12 + p.length + 16 - 28 = p.length := by omega
    rw [this, ← hctlen]
    exact List.take_left' rfl
  have hivne : iv ≠ [] := by
    intro h0; rw [h0] at hiv; simp at hiv
  have hcond1 : ¬(b64urlEncode (iv ++ ctrXor (G.keystream key iv) p ++
      G.tag key iv (ctrXor (G.keystream key iv) p)) = [] ∨ key = []) := by
    push_neg
    exact ⟨hblobne, hk⟩
  have hcond2 : ¬(key.length ≠ 32) := fun h0 => h0 hkl
  unfold aesDecryptData
  rw [if_neg hcond1, if_neg hcond2,
    if_neg (show ¬(decryptNonce _ = []) by rw [hnonce]; exact hivne)]
  unfold recomputedTag
  rw [hnonce, hct, htag, htglen]
  rw [if_pos (show tagLengthOk 16 = true by decide)]
  rw [if_pos (by rw [← htglen]; exact (G.tag key iv _).take_length)]
  rw [ctrXor_involution]

/-- C1: round-trip law of the codec.  For any non-falsy plaintext `p` (UTF-8
bytes), any non-falsy 32-byte key `k` and any 12-byte nonce drawn by
`randomBytes`, `aesDecryptData (aesEncryptData p k) k` succeeds and returns
`p`. -/
theorem aes_roundtrip (G : GCMPrim) (iv p key : List Nat)
    (hp : p ≠ []) (hk : key ≠ []) (hkl : key.length = 32) (hiv : iv.length = 12)
    (hpb : ∀ b ∈ p, b < 256) (hivb : ∀ b ∈ iv, b < 256) :
    ∃ blob, aesEncryptData G iv p key = some (Except.ok blob) ∧
      aesDecryptData G blob key = some (Except.ok p) :=
  ⟨_, aesEncryptData_eq G iv p key hp hk hkl,
    aesDecryptData_of_encrypt G iv p key hk hkl hiv hpb hivb⟩

/-- Witness for C1 at a concrete plaintext, key and nonce. -/
theorem aes_roundtrip_witness :
    ([104, 105] : List Nat) ≠ [] ∧ (List.replicate 32 97 : List Nat) ≠ [] ∧
    (List.replicate 32 97 : List Nat).length = 32 ∧
    (List.replicate 12 1 : List Nat).length = 12 ∧
    ∃ blob,
      aesEncryptData testGCM (List.replicate 12 1) [104, 105]
        (List.replicate 32 97) = some (Except.ok blob) ∧
      aesDecryptData testGCM blob (List.replicate 32 97) =
        some (Except.ok [104, 105]) :=
  ⟨by decide, by decide, by decide, by decide,
    aes_roundtrip testGCM (List.replicate 12 1) [104, 105] (List.replicate 32 97)
      (by decide) (by decide) (by decide) (by decide) (by decide) (by decide)⟩

/-- C5: absence semantics.  `aesEncryptData` returns `null` exactly when the
plaintext or the key is falsy (the empty string), and `aesDecryptData` returns
`null` exactly when the blob or the key is falsy; in both cases this is the
short-circuit return taken before any cryptographic work. -/
theorem aes_absence (G : GCMPrim) (iv p key blob : List Nat) :
    (aesEncryptData G iv p key = none ↔ p = [] ∨ key = []) ∧
    (aesDecryptData G blob key = none ↔ blob = [] ∨ key = []) := by
  constructor
  · unfold aesEncryptData
    split <;> simp_all
  · unfold aesDecryptData
    split <;> simp_all

/-- C6: integrity failures are never confused with absence.  For non-falsy
blob and key, `aesDecryptData` never returns `null`; it returns a plaintext
only when the GCM tag verification succeeds (so a tampered or wrong-key blob,
whose recomputed tag differs from the stored tag, can never yield a
plaintext); and whenever tag verification fails the result is a thrown
error. -/
theorem aes_integrity_not_absence (G : GCMPrim) (blob key : List Nat)
    (hb : blob ≠ []) (hk : key ≠ []) :
    aesDecryptData G blob key ≠ none ∧
    (∀ pt, aesDecryptData G blob key = some (Except.ok pt) →
      (recomputedTag G blob key).take (decryptStoredTag blob).length =
        decryptStoredTag blob ∧
      pt = ctrXor (G.keystream key (decryptNonce blob)) (decryptCiphertext blob)) ∧
    ((recomputedTag G blob key).take (decryptStoredTag blob).length ≠
        decryptStoredTag blob →
      ∃ e, aesDecryptData G blob key = some (Except.error e)) := by
  unfold aesDecryptData
  rw [if_neg (by push_neg; exact ⟨hb, hk⟩)]
  refine ⟨by simp, ?_, ?_⟩
  · intro pt hpt
    rw [Option.some.injEq] at hpt
    split at hpt
    · exact absurd hpt (by simp)
    · split at hpt
      · exact absurd hpt (by simp)
      · split at hpt
        · split at hpt
          · rename_i hmatch
            exact ⟨hmatch, (Except.ok.inj hpt).symm⟩
          · exact absurd hpt (by simp)
        · exact absurd hpt (by simp)
  · intro hne
    simp only [Option.some.injEq]
    split
    · exact ⟨_, rfl⟩
    split
    · exact ⟨_, rfl⟩
    split
    · exact ⟨_, rfl⟩
    · exact ⟨_, rfl⟩

/-- Witness for C6 at a concrete blob and key. -/
theorem aes_integrity_not_absence_witness :
    ([65, 65, 65, 65] : List Nat) ≠ [] ∧ (List.replicate 32 97 : List Nat) ≠ [] ∧
    (aesDecryptData testGCM [65, 65, 65, 65] (List.replicate 32 97) ≠ none ∧
    (∀ pt, aesDecryptData testGCM [65, 65, 65, 65] (List.replicate 32 97) =
        some (Except.ok pt) →
      (recomputedTag testGCM [65, 65, 65, 65] (List.replicate 32 97)).take
          (decryptStoredTag [65, 65, 65, 65]).length =
        decryptStoredTag [65, 65, 65, 65] ∧
      pt = ctrXor
        (testGCM.keystream (List.replicate 32 97) (decryptNonce [65, 65, 65, 65]))
        (decryptCiphertext [65, 65, 65, 65])) ∧
    ((recomputedTag testGCM [65, 65, 65, 65] (List.replicate 32 97)).take
          (decryptStoredTag [65, 65, 65, 65]).length ≠
        decryptStoredTag [65, 65, 65, 65] →
      ∃ e, aesDecryptData testGCM [65, 65, 65, 65] (List.replicate 32 97) =
        some (Except.error e))) :=
  ⟨by decide, by decide,
    aes_integrity_not_absence testGCM [65, 65, 65, 65] (List.replicate 32 97)
      (by decide) (by decide)⟩

/-- C8: blob wire layout.  On non-falsy inputs with a 32-byte key the blob is
the URL-safe, unpadded base64 text of `nonce (12B) ++ ciphertext ++ tag (16B)`
in this exact order; the raw byte length is `12 + N + 16` where `N` is the
plaintext's UTF-8 byte length; and every character of the text is in the
URL-safe alphabet (never `=`, `+` or `/`). -/
theorem aes_wire_layout (G : GCMPrim) (iv p key : List Nat)
    (hp : p ≠ []) (hk : key ≠ []) (hkl : key.length = 32) (hiv : iv.length = 12)
    (hpb : ∀ b ∈ p, b < 256) (hivb : ∀ b ∈ iv, b < 256) :
    aesEncryptData G iv p key = some (Except.ok (b64urlEncode (iv ++
      ctrXor (G.keystream key iv) p ++
      G.tag key iv (ctrXor (G.keystream key iv) p)))) ∧
    b64urlDecode (b64urlEncode (iv ++ ctrXor (G.keystream key iv) p ++
      G.tag key iv (ctrXor (G.keystream key iv) p))) =
      iv ++ ctrXor (G.keystream key iv) p ++
        G.tag key iv (ctrXor (G.keystream key iv) p) ∧
    (iv ++ ctrXor (G.keystream key iv) p ++
      G.tag key iv (ctrXor (G.keystream key iv) p)).length = 12 + p.length + 16 ∧
    (ctrXor (G.keystream key iv) p).length = p.length ∧
    (G.tag key iv (ctrXor (G.keystream key iv) p)).length = 16 ∧
    ∀ c ∈ b64urlEncode (iv ++ ctrXor (G.keystream key iv) p ++
      G.tag key iv (ctrXor (G.keystream key iv) p)),
      (b64Val c).isSome ∧ c ≠ 61 ∧ c ≠ 43 ∧ c ≠ 47 := by
  refine ⟨aesEncryptData_eq G iv p key hp hk hkl,
    b64url_roundtrip _ (rawBlob_bytes_lt G iv p key hpb hivb), ?_,
    ctrXor_length _ _, G.tag_length key iv _,
    b64urlEncode_chars _ (rawBlob_bytes_lt G iv p key hpb hivb)⟩
  rw [List.length_append, List.length_append, hiv, ctrXor_length,
    G.tag_length key iv]

/-- Witness for C8 at a concrete plaintext, key and nonce. -/
theorem aes_wire_layout_witness :
    ([104, 105] : List Nat) ≠ [] ∧ (List.replicate 32 97 : List Nat).length = 32 ∧
    aesEncryptData testGCM (List.replicate 12 1) [104, 105]
        (List.replicate 32 97) =
      some (Except.ok (b64urlEncode (List.replicate 12 1 ++
        ctrXor (testGCM.keystream (List.replicate 32 97) (List.replicate 12 1))
          [104, 105] ++
        testGCM.tag (List.replicate 32 97) (List.replicate 12 1)
          (ctrXor (testGCM.keystream (List.replicate 32 97) (List.replicate 12 1))
            [104, 105])))) ∧
    (List.replicate 12 1 ++
      ctrXor (testGCM.keystream (List.replicate 32 97) (List.replicate 12 1))
        [104, 105] ++
      testGCM.tag (List.replicate 32 97) (List.replicate 12 1)
        (ctrXor (testGCM.keystream (List.replicate 32 97) (List.replicate 12 1))
          [104, 105])).length = 12 + 2 + 16 :=
  have h := aes_wire_layout testGCM (List.replicate 12 1) [104, 105]
    (List.replicate 32 97) (by decide) (by decide) (by decide) (by decide)
    (by decide) (by decide)
  ⟨by decide, by decide, h.1, h.2.2.1⟩

/-- With no launched computations, the callbacks phase never settles. -/
theorem runCallbacks_nil (order : List Nat) (results : List (String × JVal))
    (completed : Nat) : runCallbacks [] order results completed = .pending := by
  induction order generalizing results completed with
  | nil => rfl
  | cons i rest ih =>
    simp only [runCallbacks, List.getElem?_nil]
    exact ih _ _

/-- C2: for the empty input mapping, the promise returned by
`promiseAllRecord` never settles — `resolve` is only ever invoked from a
per-entry callback and there are none, so the result is pending no matter
which transform is supplied and which callbacks run. -/
theorem promiseAllRecord_empty_pending (f : Option (JVal → Except JErr JVal))
    (order : List Nat) : promiseAllRecord [] f order = .pending := by
  show runCallbacks [] order [] 0 = .pending
  exact runCallbacks_nil order [] 0

/-- C9: pending-value duck typing.  `isPromise` is true exactly for the
values whose `then` property is truthy (callable or not) and false for
nullish values, strings and other plain values; and a plain object with a
truthy non-callable `then` bypasses any transform (even a missing one) and is
awaited via `Promise.resolve`, ending up unchanged under its key. -/
theorem isPromise_duck_typing :
    (∀ t, isPromise (.fakeThenable t) = true) ∧
    (∀ oc, isPromise (.thenable oc) = true) ∧
    isPromise .vNull = false ∧
    (∀ s, isPromise (.vStr s) = false) ∧
    (∀ b t, isPromise (.base b t) = false) ∧
    (∀ (k : String) (t : Nat) (f : Option (JVal → Except JErr JVal)),
      promiseAllRecord [(k, .fakeThenable t)] f [0] =
        .resolved [(k, .fakeThenable t)]) :=
  ⟨fun _ => rfl, fun _ => rfl, rfl, fun _ => rfl, fun _ _ => rfl,
    fun _ _ _ => rfl⟩

/-- Processing entries without a transform throws `Error('Invalid input')` at
the first non-promise entry, whatever came before was promise-classified. -/
theorem launchIdx_none_error (k0 : String) (v0 : JVal)
    (hv0 : isPromise v0 = false) :
    ∀ (pre : List (String × JVal)), (∀ p ∈ pre, isPromise p.2 = true) →
    ∀ (post : List (String × JVal)) (i : Nat),
      launchIdx none i (pre ++ (k0, v0) :: post) = .error .invalidInput := by
  intro pre
  induction pre with
  | nil =>
    intro _ post i
    simp only [List.nil_append, launchIdx, hv0]
    rfl
  | cons p tl ih =>
    intro hpre post i
    obtain ⟨k, v⟩ := p
    have hp : isPromise v = true := hpre (k, v) (by simp)
    simp only [List.cons_append, launchIdx, hp, if_true, List.append_eq]
    rw [ih (fun q hq => hpre q (by simp [hq])) post (i + 1)]
    rfl

/-- C7: missing-transform misuse.  If the mapping contains an entry whose
value is not promise-classified and no transform is supplied, the executor
throws `Error('Invalid input')` while iterating: that entry's work is never
launched (`launchIdx` aborts with the error before producing a launched
list), the returned promise is rejected with exactly that error regardless of
which settlement callbacks would have run (so entries launched before the
offending one keep running but their results are discarded), and entries
after it are never processed. -/
theorem promiseAllRecord_missing_transform (pre post : List (String × JVal))
    (k0 : String) (v0 : JVal)
    (hpre : ∀ p ∈ pre, isPromise p.2 = true) (hv0 : isPromise v0 = false) :
    launchIdx none 0 (pre ++ (k0, v0) :: post) = .error .invalidInput ∧
    ∀ order, promiseAllRecord (pre ++ (k0, v0) :: post) none order =
      .rejected .invalidInput := by
  have h := launchIdx_none_error k0 v0 hv0 pre hpre post 0
  refine ⟨h, fun order => ?_⟩
  unfold promiseAllRecord
  simp only [Option.map_none']
  rw [h]

/-- Witness for C7 at a concrete record: a launched promise under `"a"`, then
a plain string under `"b"`, no transform. -/
theorem promiseAllRecord_missing_transform_witness :
    isPromise (.vStr [104]) = false ∧
    (launchIdx none 0 ([("a", JVal.thenable (.ok .vNull))] ++
        ("b", JVal.vStr [104]) :: []) = .error .invalidInput ∧
      ∀ order, promiseAllRecord ([("a", JVal.thenable (.ok .vNull))] ++
        ("b", JVal.vStr [104]) :: []) none order = .rejected .invalidInput) :=
  ⟨rfl, promiseAllRecord_missing_transform [("a", JVal.thenable (.ok .vNull))]
    [] "b" (.vStr [104]) (by intro p hp; simp at hp; rw [hp]; rfl) rfl⟩

/-- A duplicate-free list of naturals all below `n` has at most `n`
elements. -/
theorem nodup_bounded_length_le (l : List Nat) (n : Nat) (hl : l.Nodup)
    (hb : ∀ x ∈ l, x < n) : l.length ≤ n := by
  classical
  have h1 : l.toFinset.card = l.length := List.toFinset_card_of_nodup hl
  have h2 : l.toFinset ⊆ Finset.range n := by
    intro x hx
    rw [List.mem_toFinset] at hx
    exact Finset.mem_range.mpr (hb x hx)
  have h3 := Finset.card_le_card h2
  rw [h1, Finset.card_range] at h3
  exact h3

/-- If the callbacks that have run are successes, none of them having filled
the mapping, and then a failing entry's callback runs, the promise is
rejected with that entry's error — whatever callbacks would come later. -/
theorem runCallbacks_first_error (L : List (String × Except JErr JVal))
    (i : Nat) (ki : String) (e : JErr) (hi : L[i]? = some (ki, .error e)) :
    ∀ (ord1 : List Nat), (∀ j ∈ ord1, ∃ k v, L[j]? = some (k, Except.ok v)) →
    ∀ (rest : List Nat) (results : List (String × JVal)) (completed : Nat),
      completed + ord1.length < L.length →
      runCallbacks L (ord1 ++ i :: rest) results completed = .rejected e := by
  intro ord1
  induction ord1 with
  | nil =>
    intro _ rest results completed _
    simp only [List.nil_append, runCallbacks, hi]
  | cons j tl ih =>
    intro hok rest results completed hlt
    obtain ⟨k, v, hj⟩ := hok j (by simp)
    simp only [List.cons_append, runCallbacks, hj]
    have hlt2 : completed + tl.length + 1 < L.length := by
      simp only [List.length_cons] at hlt
      omega
    rw [if_neg (by omega)]
    exact ih (fun q hq => hok q (by simp [hq])) rest _ (completed + 1) (by omega)

/-- C3: fail-fast aggregate failure.  Once the executor has launched the
computations, if the callbacks that run are successes up to the first failing
entry, the promise is rejected with exactly that entry's error (unmodified),
at that point — irrespective of whatever callbacks (other entries' successes
or failures) would run afterwards, whose results are thus discarded. -/
theorem promiseAllRecord_fail_fast (object : List (String × JVal))
    (f : Option (JVal → Except JErr JVal))
    (L : List (String × Except JErr JVal)) (ord1 rest : List Nat) (i : Nat)
    (ki : String) (e : JErr)
    (hL : launchIdx (f.map (fun g _ v => g v)) 0 object = .ok L)
    (hok : ∀ j ∈ ord1, ∃ k v, L[j]? = some (k, Except.ok v))
    (hi : L[i]? = some (ki, .error e))
    (hnd : (ord1 ++ [i]).Nodup) :
    promiseAllRecord object f (ord1 ++ i :: rest) = .rejected e := by
  unfold promiseAllRecord
  rw [hL]
  have hbounds : ∀ x ∈ ord1 ++ [i], x < L.length := by
    intro x hx
    rcases List.mem_append.mp hx with hx | hx
    · obtain ⟨k, v, hj⟩ := hok x hx
      obtain ⟨hlt, -⟩ := List.getElem?_eq_some.mp hj
      exact hlt
    · rw [List.mem_singleton.mp hx]
      obtain ⟨hlt, -⟩ := List.getElem?_eq_some.mp hi
      exact hlt
  have hlen : (ord1 ++ [i]).length ≤ L.length :=
    nodup_bounded_length_le _ _ hnd hbounds
  apply runCallbacks_first_error L i ki e hi ord1 hok rest [] 0
  simp only [List.length_append, List.length_singleton] at hlen
  omega

/-- Witness for C3 at a concrete record: entry `"a"` settles first (success),
then `"b"` fails; a further callback is queued after the failure and does not
change the outcome. -/
theorem promiseAllRecord_fail_fast_witness :
    (([0] ++ [1] : List Nat)).Nodup ∧
    promiseAllRecord
      [("a", JVal.thenable (.ok .vNull)), ("b", JVal.thenable (.error (.user 3)))]
      none ([0] ++ 1 :: [0]) = .rejected (.user 3) :=
  ⟨by decide,
    promiseAllRecord_fail_fast
      [("a", JVal.thenable (.ok .vNull)), ("b", JVal.thenable (.error (.user 3)))]
      none [("a", Except.ok .vNull), ("b", Except.error (.user 3))]
      [0] [0] 1 "b" (.user 3) rfl
      (by
        intro j hj
        rw [List.mem_singleton.mp hj]
        exact ⟨"a", .vNull, rfl⟩)
      rfl (by decide)⟩

/-- Assigning a fresh key appends the pair at the end (JS insertion order). -/
theorem jsSet_append (results : List (String × JVal)) (k : String) (v : JVal)
    (h : k ∉ results.map Prod.fst) : jsSet results k v = results ++ [(k, v)] := by
  induction results with
  | nil => rfl
  | cons p tl ih =>
    obtain ⟨k', v'⟩ := p
    simp only [List.map_cons, List.mem_cons] at h
    push_neg at h
    obtain ⟨h1, h2⟩ := h
    simp only [jsSet]
    rw [if_neg (fun h0 => h1 h0.symm), ih h2]
    rfl

/-- The executor, when it completes, launches one computation per entry, in
entry order and under the entry's key. -/
theorem launchIdx_keys (f : Option (Nat → JVal → Except JErr JVal)) :
    ∀ (object : List (String × JVal)) (i : Nat)
      (L : List (String × Except JErr JVal)),
      launchIdx f i object = .ok L → L.map Prod.fst = object.map Prod.fst := by
  intro object
  induction object with
  | nil =>
    intro i L h
    cases h
    rfl
  | cons p tl ih =>
    intro i L h
    obtain ⟨k, v⟩ := p
    simp only [launchIdx] at h
    by_cases hv : isPromise v
    · rw [if_pos hv] at h
      cases htl : launchIdx f (i + 1) tl with
      | error e => rw [htl] at h; cases h
      | ok L' =>
        rw [htl] at h
        cases h
        simp only [List.map_cons, List.cons.injEq, true_and]
        exact ih (i + 1) L' htl
    · rw [if_neg hv] at h
      cases f with
      | none => cases h
      | some g =>
        simp only at h
        cases hg : g i v with
        | error e => rw [hg] at h; cases h
        | ok r =>
          rw [hg] at h
          cases htl : launchIdx (some g) (i + 1) tl with
          | error e => rw [htl] at h; cases h
          | ok L' =>
            rw [htl] at h
            cases h
            simp only [List.map_cons, List.cons.injEq, true_and]
            exact ih (i + 1) L' htl

/-- The keys of the successful-settlement entries, read off along all
indices, are the launched list's keys. -/
theorem map_entryAt_range (L : List (String × Except JErr JVal)) :
    (List.range L.length).map (fun j => (entryAt L j).1) = L.map Prod.fst := by
  induction L with
  | nil => rfl
  | cons p tl ih =>
    simp only [List.length_cons, List.range_succ_eq_map, List.map_cons,
      List.map_map]
    have hhead : (entryAt (p :: tl) 0).1 = p.1 := by simp [entryAt]
    have htail : ∀ j ∈ List.range tl.length,
        ((fun j => (entryAt (p :: tl) j).1) ∘ (· + 1)) j =
          (fun j => (entryAt tl j).1) j := by
      intro j _
      simp [Function.comp, entryAt]
    rw [List.map_congr_left htail, ih, hhead]

/-- Distinct positions of a list with duplicate-free keys carry distinct
keys. -/
theorem keys_distinct (L : List (String × Except JErr JVal))
    (hkeys : (L.map Prod.fst).Nodup) (i j : Nat) (hij : i ≠ j)
    (ki kj : String) (vi vj : Except JErr JVal)
    (hi : L[i]? = some (ki, vi)) (hj : L[j]? = some (kj, vj)) : ki ≠ kj := by
  intro hcontra
  obtain ⟨hilt, hie⟩ := List.getElem?_eq_some.mp hi
  obtain ⟨hjlt, hje⟩ := List.getElem?_eq_some.mp hj
  have hilt' : i < (L.map Prod.fst).length := by simpa using hilt
  have hjlt' : j < (L.map Prod.fst).length := by simpa using hjlt
  have he : (L.map Prod.fst)[i] = (L.map Prod.fst)[j] := by
    rw [List.getElem_map, List.getElem_map, hie, hje]
    exact hcontra
  exact hij ((List.Nodup.getElem_inj_iff hkeys).mp he)

/-- A duplicate-free list of `n` naturals all below `n` is a permutation of
`range n`. -/
theorem nodup_bounded_full_perm (l : List Nat) (n : Nat) (hl : l.Nodup)
    (hb : ∀ x ∈ l, x < n) (hlen : l.length = n) : l.Perm (List.range n) := by
  classical
  have hsub : l.toFinset ⊆ Finset.range n := by
    intro x hx
    rw [List.mem_toFinset] at hx
    exact Finset.mem_range.mpr (hb x hx)
  have hcardeq : l.toFinset.card = (Finset.range n).card := by
    rw [List.toFinset_card_of_nodup hl, Finset.card_range, hlen]
  have heq : l.toFinset = Finset.range n :=
    Finset.eq_of_subset_of_card_le hsub (le_of_eq hcardeq.symm)
  refine List.perm_of_nodup_nodup_toFinset_eq hl (List.nodup_range n) ?_
  rw [heq]
  ext x
  simp

/-- Inversion of the callbacks phase: if the promise resolved, the callbacks
that ran form a duplicate-free selection of successful entries whose results
were appended to the accumulator, and their count closed the gap to the entry
count. -/
theorem runCallbacks_resolved_inv (L : List (String × Except JErr JVal))
    (hkeys : (L.map Prod.fst).Nodup) :
    ∀ (order : List Nat), order.Nodup →
    ∀ (results : List (String × JVal)) (completed : Nat)
      (m : List (String × JVal)),
      (∀ j ∈ order, ∀ k v, L[j]? = some (k, v) → k ∉ results.map Prod.fst) →
      runCallbacks L order results completed = .resolved m →
      ∃ used : List Nat, used.Sublist order ∧
        (∀ j ∈ used, ∃ k v, L[j]? = some (k, Except.ok v)) ∧
        m = results ++ used.map (entryAt L) ∧
        completed + used.length = L.length := by
  intro order
  induction order with
  | nil =>
    intro _ results completed m _ hrun
    exact absurd hrun (by simp [runCallbacks])
  | cons i rest ih =>
    intro hnd results completed m hfresh hrun
    rcases hL : L[i]? with _ | ⟨k, oc⟩
    · simp only [runCallbacks, hL] at hrun
      obtain ⟨used, hsub, hok, hm, hcount⟩ :=
        ih hnd.of_cons results completed m
          (fun j hj => hfresh j (by simp [hj])) hrun
      exact ⟨used, hsub.cons i, hok, hm, hcount⟩
    · cases oc with
      | error e =>
        simp only [runCallbacks, hL] at hrun
        exact POutcome.noConfusion hrun
      | ok v =>
        simp only [runCallbacks, hL] at hrun
        have hkfresh : k ∉ results.map Prod.fst :=
          hfresh i (by simp) k (.ok v) hL
        by_cases hc : completed + 1 = L.length
        · rw [if_pos hc] at hrun
          have hm : m = jsSet results k v := (POutcome.resolved.inj hrun).symm
          refine ⟨[i], ?_, ?_, ?_, by simpa using hc⟩
          · exact (List.nil_sublist rest).cons₂ i
          · intro j hj
            rw [List.mem_singleton.mp hj]
            exact ⟨k, v, hL⟩
          · rw [hm, jsSet_append _ _ _ hkfresh]
            simp [entryAt, hL, okD]
        · rw [if_neg hc] at hrun
          have hfresh' : ∀ j ∈ rest, ∀ k' v', L[j]? = some (k', v') →
              k' ∉ (jsSet results k v).map Prod.fst := by
            intro j hj k' v' hj'
            rw [jsSet_append _ _ _ hkfresh]
            simp only [List.map_append, List.mem_append, List.map_cons,
              List.map_nil, List.mem_singleton]
            push_neg
            constructor
            · exact hfresh j (by simp [hj]) k' v' hj'
            · have hne : i ≠ j := by
                intro h0
                exact (List.nodup_cons.mp hnd).1 (h0 ▸ hj)
              exact fun h0 =>
                keys_distinct L hkeys i j hne k k' (.ok v) v' hL hj' h0.symm
          obtain ⟨used, hsub, hok, hm, hcount⟩ :=
            ih hnd.of_cons (jsSet results k v) (completed + 1) m hfresh' hrun
          refine ⟨i :: used, hsub.cons₂ i, ?_, ?_, ?_⟩
          · intro j hj
            rcases List.mem_cons.mp hj with rfl | hj
            · exact ⟨k, v, hL⟩
            · exact hok j hj
          · rw [hm, jsSet_append _ _ _ hkfresh]
            simp [entryAt, hL, okD]
          · simp only [List.length_cons]
            omega

/-- C4: key-set preservation.  Whenever the promise returned by
`promiseAllRecord` resolves (keys unique as in a JS object, callbacks
duplicate-free as promises settle once), the executor had launched one
computation per entry under the entry's key, every launched computation had
settled successfully and its callback had run before the resolution, and the
resolved mapping carries exactly the input's key set, each key bound to the
settled result of that key's computation. -/
theorem promiseAllRecord_key_preservation (object : List (String × JVal))
    (f : Option (JVal → Except JErr JVal)) (order : List Nat)
    (m : List (String × JVal))
    (hkeys : (object.map Prod.fst).Nodup) (hord : order.Nodup)
    (hres : promiseAllRecord object f order = .resolved m) :
    ∃ L, launchIdx (f.map (fun g _ v => g v)) 0 object = .ok L ∧
      L.map Prod.fst = object.map Prod.fst ∧
      (∀ q ∈ L, ∃ v, q.2 = Except.ok v) ∧
      (∀ j, j < L.length → j ∈ order) ∧
      (m.map Prod.fst).Perm (object.map Prod.fst) ∧
      (∀ q ∈ m, (q.1, Except.ok q.2) ∈ L) := by
  unfold promiseAllRecord at hres
  cases hlaunch : launchIdx (f.map (fun g _ v => g v)) 0 object with
  | error e =>
    rw [hlaunch] at hres
    exact POutcome.noConfusion hres
  | ok L =>
    rw [hlaunch] at hres
    have hLkeys : L.map Prod.fst = object.map Prod.fst :=
      launchIdx_keys _ object 0 L hlaunch
    have hkeysL : (L.map Prod.fst).Nodup := by rw [hLkeys]; exact hkeys
    obtain ⟨used, hsub, hok, hm, hcount⟩ :=
      runCallbacks_resolved_inv L hkeysL order hord [] 0 m (by simp) hres
    simp only [List.nil_append] at hm
    have husednd : used.Nodup := hord.sublist hsub
    have husedlt : ∀ x ∈ used, x < L.length := by
      intro x hx
      obtain ⟨k, v, hj⟩ := hok x hx
      exact (List.getElem?_eq_some.mp hj).1
    have hperm : used.Perm (List.range L.length) :=
      nodup_bounded_full_perm used L.length husednd husedlt (by omega)
    refine ⟨L, rfl, hLkeys, ?_, ?_, ?_, ?_⟩
    · intro q hq
      obtain ⟨j, hjlt, hje⟩ := List.mem_iff_getElem.mp hq
      have hju : j ∈ used := hperm.mem_iff.mpr (List.mem_range.mpr hjlt)
      obtain ⟨k, v, hj⟩ := hok j hju
      have : some q = some (k, Except.ok v) := by
        rw [← hj, List.getElem?_eq_getElem hjlt, hje]
      cases this
      exact ⟨v, rfl⟩
    · intro j hjlt
      exact hsub.subset (hperm.mem_iff.mpr (List.mem_range.mpr hjlt))
    · rw [hm, List.map_map]
      have h1 : (used.map (Prod.fst ∘ entryAt L)).Perm
          ((List.range L.length).map (Prod.fst ∘ entryAt L)) :=
        hperm.map _
      have h2 : (List.range L.length).map (Prod.fst ∘ entryAt L) =
          L.map Prod.fst := map_entryAt_range L
      rw [h2, hLkeys] at h1
      exact h1
    · intro q hq
      rw [hm] at hq
      obtain ⟨j, hju, hje⟩ := List.mem_map.mp hq
      obtain ⟨k, v, hj⟩ := hok j hju
      have hq2 : q = (k, v) := by
        rw [← hje]
        simp [entryAt, hj, okD]
      rw [hq2]
      exact List.getElem?_mem hj

/-- Witness for C4 at a concrete record: one already-pending entry that
settles successfully. -/
theorem promiseAllRecord_key_preservation_witness :
    ([("a", JVal.thenable (.ok (.base true 5)))].map Prod.fst).Nodup ∧
    ([0] : List Nat).Nodup ∧
    promiseAllRecord [("a", JVal.thenable (.ok (.base true 5)))] none [0] =
      .resolved [("a", JVal.base true 5)] ∧
    ∃ L, launchIdx ((none : Option (JVal → Except JErr JVal)).map
        (fun g _ v => g v)) 0 [("a", JVal.thenable (.ok (.base true 5)))] =
        .ok L ∧
      L.map Prod.fst = [("a", JVal.thenable (.ok (.base true 5)))].map Prod.fst ∧
      (∀ q ∈ L, ∃ v, q.2 = Except.ok v) ∧
      (∀ j, j < L.length → j ∈ ([0] : List Nat)) ∧
      (([("a", JVal.base true 5)].map Prod.fst)).Perm
        ([("a", JVal.thenable (.ok (.base true 5)))].map Prod.fst) ∧
      (∀ q ∈ [("a", JVal.base true 5)], (q.1, Except.ok q.2) ∈ L) :=
  ⟨by simp, by simp,  rfl,
    promiseAllRecord_key_preservation [("a", JVal.thenable (.ok (.base true 5)))]
      none [0] [("a", JVal.base true 5)] (by simp) (by simp) rfl⟩

/-- With duplicate-free keys, the key at position `j` does not occur among
the keys of the first `j` entries. -/
theorem key_not_in_take (L : List (String × Except JErr JVal))
    (hkeys : (L.map Prod.fst).Nodup) (j : Nat) (k : String)
    (oc : Except JErr JVal) (hp : L[j]? = some (k, oc)) :
    k ∉ (L.take j).map Prod.fst := by
  intro hmem
  obtain ⟨q, hq, hq1⟩ := List.mem_map.mp hmem
  obtain ⟨i, hilt, hie⟩ := List.mem_iff_getElem.mp hq
  have hjlt : j < L.length := (List.getElem?_eq_some.mp hp).1
  have hilen : i < j := by
    have h0 := hilt
    simp only [List.length_take] at h0
    omega
  have hiL : i < L.length := by omega
  have hqe : L[i]? = some q := by
    rw [List.getElem?_eq_getElem hiL, ← List.getElem_take L, hie]
  exact keys_distinct L hkeys i j (by omega) q.1 k q.2 oc
    (by rw [hqe]) hp hq1

/-- Forward run: when every launched computation settles successfully and
the callbacks run once each (in index order here), the promise resolves with
each entry's key bound to its settled value. -/
theorem runCallbacks_range_aux (L : List (String × Except JErr JVal))
    (hkeys : (L.map Prod.fst).Nodup)
    (hok : ∀ p ∈ L, ∃ v, p.2 = Except.ok v) :
    ∀ (d j : Nat), d = L.length - j → j < L.length →
      runCallbacks L (List.range' j d)
        ((L.take j).map (fun p => (p.1, okD p.2))) j =
        .resolved (L.map (fun p => (p.1, okD p.2))) := by
  intro d
  induction d with
  | zero =>
    intro j hd hj
    omega
  | succ d' ihd =>
    intro j hd hj
    rcases hp : L[j] with ⟨k, oc⟩
    have hj? : L[j]? = some (k, oc) := by
      rw [List.getElem?_eq_getElem hj, hp]
    obtain ⟨v, hv⟩ := hok L[j] (List.getElem_mem hj)
    rw [hp] at hv
    simp only at hv
    subst hv
    have hfresh : k ∉ ((L.take j).map (fun p => (p.1, okD p.2))).map Prod.fst := by
      intro hmem
      apply key_not_in_take L hkeys j k (Except.ok v) hj?
      simpa [List.map_map, Function.comp] using hmem
    have hset : jsSet ((L.take j).map (fun p => (p.1, okD p.2))) k v =
        (L.take (j + 1)).map (fun p => (p.1, okD p.2)) := by
      rw [jsSet_append _ _ _ hfresh, ← List.take_concat_get' L j hj, hp,
        List.map_append]
      rfl
    show runCallbacks L (j :: List.range' (j + 1) d') _ j = _
    simp only [runCallbacks, hj?]
    by_cases hc : j + 1 = L.length
    · rw [if_pos hc, hset, hc, List.take_length]
    · rw [if_neg hc, hset]
      exact ihd (j + 1) (by omega) (by omega)

/-- All-successful entries resolve under the index-order schedule with the
mapping of settled values. -/
theorem runCallbacks_range_resolved (L : List (String × Except JErr JVal))
    (hkeys : (L.map Prod.fst).Nodup)
    (hok : ∀ p ∈ L, ∃ v, p.2 = Except.ok v) (hne : L ≠ []) :
    runCallbacks L (List.range L.length) [] 0 =
      .resolved (L.map (fun p => (p.1, okD p.2))) := by
  have h0 : 0 < L.length := List.length_pos.mpr hne
  have h := runCallbacks_range_aux L hkeys hok L.length 0 (by omega) h0
  rw [List.range_eq_range' L.length]
  simpa using h

/-- Settling the promisified encryption of a string field under a 32-byte
key: always a success, with the field's encrypted value. -/
theorem settle_promisified_enc (G : GCMPrim) (iv key s : List Nat)
    (hk : key ≠ []) (hkl : key.length = 32) :
    settle (promisifiedAesEncryptData G iv key (.vStr s)) =
      Except.ok (encFieldValue G iv key s) := by
  by_cases hs : s = []
  · subst hs
    simp [promisifiedAesEncryptData, aesEncryptData, encFieldValue, settle]
  · simp [promisifiedAesEncryptData, encFieldValue,
      aesEncryptData_eq G iv s key hs hk hkl, settle]

/-- The empty-string field encrypts to a settled `null` (no key condition:
the falsy short-circuit fires first). -/
theorem settle_promisified_enc_nil (G : GCMPrim) (iv key : List Nat) :
    settle (promisifiedAesEncryptData G iv key (.vStr [])) =
      Except.ok .vNull := by
  simp [promisifiedAesEncryptData, aesEncryptData, settle]

/-- Over a record of string fields, the bulk-encrypt executor completes and
launches exactly the promisified encryptions. -/
theorem encLaunched_spec (G : GCMPrim) (tape : Nat → List Nat)
    (key : List Nat) :
    ∀ (object : List (String × JVal)) (i : Nat),
      (∀ p ∈ object, ∃ s, p.2 = JVal.vStr s) →
      launchIdx
        (some fun i v => .ok (promisifiedAesEncryptData G (tape i) key v))
        i object = .ok (encLaunched G tape key i object) := by
  intro object
  induction object with
  | nil => intro i _; rfl
  | cons q tl ih =>
    intro i hf
    obtain ⟨k, v⟩ := q
    obtain ⟨s, hs⟩ := hf (k, v) (by simp)
    simp only at hs
    subst hs
    simp only [launchIdx, isPromise, Bool.false_eq_true, if_false]
    rw [ih (i + 1) (fun q hq => hf q (by simp [hq]))]
    rfl

/-- Every computation launched by bulk-encrypt over string fields settles
successfully. -/
theorem encLaunched_ok (G : GCMPrim) (tape : Nat → List Nat)
    (key : List Nat) (hk : key ≠ []) (hkl : key.length = 32) :
    ∀ (object : List (String × JVal)) (i : Nat),
      (∀ p ∈ object, ∃ s, p.2 = JVal.vStr s) →
      ∀ p ∈ encLaunched G tape key i object, ∃ w, p.2 = Except.ok w := by
  intro object
  induction object with
  | nil =>
    intro i _ p hp
    simp [encLaunched] at hp
  | cons q tl ih =>
    intro i hf p hp
    obtain ⟨k, v⟩ := q
    obtain ⟨s, hs⟩ := hf (k, v) (by simp)
    simp only at hs
    subst hs
    simp only [encLaunched, List.mem_cons] at hp
    rcases hp with rfl | hp
    · exact ⟨encFieldValue G (tape i) key s,
        settle_promisified_enc G (tape i) key s hk hkl⟩
    · exact ih (i + 1) (fun q hq => hf q (by simp [hq])) p hp

/-- Each settled bulk-encrypt value is the encryption of some string field
under some entry of the nonce tape. -/
theorem encLaunched_entries (G : GCMPrim) (tape : Nat → List Nat)
    (key : List Nat) (hk : key ≠ []) (hkl : key.length = 32) :
    ∀ (object : List (String × JVal)) (i : Nat),
      (∀ p ∈ object, ∃ s, p.2 = JVal.vStr s ∧ ∀ b ∈ s, b < 256) →
      ∀ p ∈ encLaunched G tape key i object,
        ∃ j s, (∀ b ∈ s, b < 256) ∧
          p.2 = Except.ok (encFieldValue G (tape j) key s) := by
  intro object
  induction object with
  | nil =>
    intro i _ p hp
    simp [encLaunched] at hp
  | cons q tl ih =>
    intro i hf p hp
    obtain ⟨k, v⟩ := q
    obtain ⟨s, hs, hsb⟩ := hf (k, v) (by simp)
    simp only at hs
    subst hs
    simp only [encLaunched, List.mem_cons] at hp
    rcases hp with rfl | hp
    · exact ⟨i, s, hsb, settle_promisified_enc G (tape i) key s hk hkl⟩
    · exact ih (i + 1) (fun q hq => hf q (by simp [hq])) p hp

/-- Bulk-encrypt keeps each entry's key. -/
theorem encLaunched_keys (G : GCMPrim) (tape : Nat → List Nat)
    (key : List Nat) :
    ∀ (object : List (String × JVal)) (i : Nat),
      (encLaunched G tape key i object).map Prod.fst = object.map Prod.fst := by
  intro object
  induction object with
  | nil => intro i; rfl
  | cons q tl ih =>
    intro i
    obtain ⟨k, v⟩ := q
    simp only [encLaunched, List.map_cons, List.cons.injEq, true_and]
    exact ih (i + 1)

/-- An empty-string field appears among the launched computations as a
settled `null`. -/
theorem encLaunched_mem_nil (G : GCMPrim) (tape : Nat → List Nat)
    (key : List Nat) (k0 : String) :
    ∀ (object : List (String × JVal)) (i : Nat),
      (k0, JVal.vStr []) ∈ object →
      (k0, Except.ok JVal.vNull) ∈ encLaunched G tape key i object := by
  intro object
  induction object with
  | nil =>
    intro i h
    simp at h
  | cons q tl ih =>
    intro i h
    cases List.mem_cons.mp h with
    | inl heq =>
      rw [← heq]
      simp only [encLaunched]
      rw [settle_promisified_enc_nil G (tape i) key]
      exact List.mem_cons_self _ _
    | inr hm =>
      obtain ⟨k, v⟩ := q
      exact List.mem_cons_of_mem _ (ih (i + 1) hm)

/-- Settling the promisified decryption of a `null` field: `null` again. -/
theorem settle_promisified_dec_null (G : GCMPrim) (key : List Nat) :
    settle (promisifiedAesDecryptData G key .vNull) = Except.ok .vNull := rfl

/-- Settling the promisified decryption of a string field whose decryption
succeeds yields that plaintext. -/
theorem settle_promisified_dec_vStr (G : GCMPrim) (key s' pt : List Nat)
    (h : aesDecryptData G s' key = some (Except.ok pt)) :
    settle (promisifiedAesDecryptData G key (.vStr s')) =
      Except.ok (.vStr pt) := by
  show settle (.thenable (match aesDecryptData G s' key with
    | none => Except.ok JVal.vNull
    | some (Except.ok pt) => Except.ok (JVal.vStr pt)
    | some (Except.error e) => Except.error (JErr.crypto e))) =
    Except.ok (.vStr pt)
  rw [h]
  rfl

/-- Settling the promisified decryption of a well-formed blob field recovers
the original string. -/
theorem settle_promisified_dec_blob (G : GCMPrim) (key iv s : List Nat)
    (hk : key ≠ []) (hkl : key.length = 32) (hiv : iv.length = 12)
    (hivb : ∀ b ∈ iv, b < 256) (hsb : ∀ b ∈ s, b < 256) :
    settle (promisifiedAesDecryptData G key
        (.vStr (b64urlEncode (iv ++ ctrXor (G.keystream key iv) s ++
          G.tag key iv (ctrXor (G.keystream key iv) s))))) =
      Except.ok (.vStr s) :=
  settle_promisified_dec_vStr G key _ s
    (aesDecryptData_of_encrypt G iv s key hk hkl hiv hsb hivb)

/-- Over a record of plain (non-promise) fields, the bulk-decrypt executor
completes and launches exactly the promisified decryptions. -/
theorem decLaunched_spec (G : GCMPrim) (key : List Nat) :
    ∀ (object : List (String × JVal)),
      (∀ p ∈ object, isPromise p.2 = false) →
      ∀ i, launchIdx (Option.map (fun g _ v => g v)
          (some fun v => Except.ok (promisifiedAesDecryptData G key v)))
        i object = .ok (decLaunched G key object) := by
  intro object
  induction object with
  | nil => intro _ i; rfl
  | cons q tl ih =>
    intro hf i
    obtain ⟨k, v⟩ := q
    have hv : isPromise v = false := hf (k, v) (by simp)
    simp only [Option.map_some', launchIdx, hv, Bool.false_eq_true, if_false]
    rw [show (Option.map (fun g _ v => g v)
        (some fun v => Except.ok (promisifiedAesDecryptData G key v))) =
        some ((fun (g : JVal → Except JErr JVal) (_ : Nat) v => g v)
          (fun v => Except.ok (promisifiedAesDecryptData G key v))) from rfl]
      at ih
    rw [ih (fun q hq => hf q (by simp [hq])) (i + 1)]
    rfl

/-- Every computation launched by bulk-decrypt over `null`-or-valid-blob
fields settles successfully. -/
theorem decLaunched_ok (G : GCMPrim) (key : List Nat)
    (hk : key ≠ []) (hkl : key.length = 32) :
    ∀ (object : List (String × JVal)),
      (∀ p ∈ object, p.2 = JVal.vNull ∨
        ∃ iv s, iv.length = 12 ∧ (∀ b ∈ iv, b < 256) ∧ (∀ b ∈ s, b < 256) ∧
          p.2 = JVal.vStr (b64urlEncode (iv ++ ctrXor (G.keystream key iv) s ++
            G.tag key iv (ctrXor (G.keystream key iv) s)))) →
      ∀ p ∈ decLaunched G key object, ∃ w, p.2 = Except.ok w := by
  intro object
  induction object with
  | nil =>
    intro _ p hp
    simp [decLaunched] at hp
  | cons q tl ih =>
    intro hf p hp
    obtain ⟨k, v⟩ := q
    simp only [decLaunched, List.mem_cons] at hp
    cases hp with
    | inl heq =>
      subst heq
      cases hf (k, v) (by simp) with
      | inl hnull =>
        simp only at hnull
        subst hnull
        exact ⟨.vNull, settle_promisified_dec_null G key⟩
      | inr hblob =>
        obtain ⟨iv, s, hiv, hivb, hsb, hv⟩ := hblob
        simp only at hv
        subst hv
        exact ⟨.vStr s,
          settle_promisified_dec_blob G key iv s hk hkl hiv hivb hsb⟩
    | inr hm => exact ih (fun q hq => hf q (by simp [hq])) p hm

/-- Bulk-decrypt keeps each entry's key. -/
theorem decLaunched_keys (G : GCMPrim) (key : List Nat) :
    ∀ (object : List (String × JVal)),
      (decLaunched G key object).map Prod.fst = object.map Prod.fst := by
  intro object
  induction object with
  | nil => rfl
  | cons q tl ih =>
    obtain ⟨k, v⟩ := q
    simp only [decLaunched, List.map_cons, List.cons.injEq, true_and]
    exact ih

/-- A `null` field appears among the launched decryptions as a settled
`null`. -/
theorem decLaunched_mem_null (G : GCMPrim) (key : List Nat) (k0 : String) :
    ∀ (object : List (String × JVal)),
      (k0, JVal.vNull) ∈ object →
      (k0, Except.ok JVal.vNull) ∈ decLaunched G key object := by
  intro object
  induction object with
  | nil =>
    intro h
    simp at h
  | cons q tl ih =>
    intro h
    cases List.mem_cons.mp h with
    | inl heq =>
      rw [← heq]
      simp only [decLaunched]
      rw [settle_promisified_dec_null G key]
      exact List.mem_cons_self _ _
    | inr hm =>
      obtain ⟨k, v⟩ := q
      exact List.mem_cons_of_mem _ (ih hm)

/-- C10: bulk empty-field behaviour.  For a flat record of string fields
(bytes of each string `< 256`) containing a field with the empty string,
under a non-falsy 32-byte key and per-call 12-byte nonces, `bulkAesEncrypt`
still resolves, mapping that field to `null` (not to a blob), because
`aesEncryptData` short-circuits on the falsy value; and bulk-decrypting the
resolved record again resolves with `null` (not the empty string) for that
field. -/
theorem bulkAes_empty_field (G : GCMPrim) (tape : Nat → List Nat)
    (object : List (String × JVal)) (key : List Nat) (k0 : String)
    (hk : key ≠ []) (hkl : key.length = 32)
    (hfields : ∀ p ∈ object, ∃ s, p.2 = JVal.vStr s ∧ ∀ b ∈ s, b < 256)
    (hmem : (k0, JVal.vStr []) ∈ object)
    (hnodup : (object.map Prod.fst).Nodup)
    (htape : ∀ i, (tape i).length = 12 ∧ ∀ b ∈ tape i, b < 256) :
    ∃ m, bulkAesEncrypt G tape object key (List.range object.length) =
        .resolved m ∧
      (k0, JVal.vNull) ∈ m ∧
      ∃ m2, bulkAesDecrypt G m key (List.range m.length) = .resolved m2 ∧
        (k0, JVal.vNull) ∈ m2 := by
  have hfields1 : ∀ p ∈ object, ∃ s, p.2 = JVal.vStr s :=
    fun p hp => ⟨(hfields p hp).choose, (hfields p hp).choose_spec.1⟩
  have hL : launchIdx
      (some fun i v => .ok (promisifiedAesEncryptData G (tape i) key v))
      0 object = .ok (encLaunched G tape key 0 object) :=
    encLaunched_spec G tape key object 0 hfields1
  have hLkeys : (encLaunched G tape key 0 object).map Prod.fst =
      object.map Prod.fst := encLaunched_keys G tape key object 0
  have hkeysnd : ((encLaunched G tape key 0 object).map Prod.fst).Nodup := by
    rw [hLkeys]; exact hnodup
  have hLok : ∀ p ∈ encLaunched G tape key 0 object, ∃ w, p.2 = Except.ok w :=
    encLaunched_ok G tape key hk hkl object 0 hfields1
  have hone : object ≠ [] := List.ne_nil_of_mem hmem
  have hLne : encLaunched G tape key 0 object ≠ [] := by
    intro h0
    apply hone
    rw [h0] at hLkeys
    exact (List.map_eq_nil_iff.mp hLkeys.symm)
  have hLlen : (encLaunched G tape key 0 object).length = object.length := by
    have h1 := congrArg List.length hLkeys
    simpa using h1
  have hrun := runCallbacks_range_resolved (encLaunched G tape key 0 object)
    hkeysnd hLok hLne
  have hmmem : (k0, JVal.vNull) ∈
      (encLaunched G tape key 0 object).map (fun p => (p.1, okD p.2)) :=
    List.mem_map_of_mem _ (encLaunched_mem_nil G tape key k0 object 0 hmem)
  refine ⟨(encLaunched G tape key 0 object).map (fun p => (p.1, okD p.2)),
    ?_, hmmem, ?_⟩
  · unfold bulkAesEncrypt
    rw [hL, ← hLlen]
    exact hrun
  · have hmkeys : ((encLaunched G tape key 0 object).map
        (fun p => (p.1, okD p.2))).map Prod.fst = object.map Prod.fst := by
      rw [List.map_map, ← hLkeys]
      exact List.map_congr_left (fun p _ => rfl)
    have hmnodup : (((encLaunched G tape key 0 object).map
        (fun p => (p.1, okD p.2))).map Prod.fst).Nodup := by
      rw [hmkeys]; exact hnodup
    have hmfields : ∀ p ∈ (encLaunched G tape key 0 object).map
        (fun p => (p.1, okD p.2)), p.2 = JVal.vNull ∨
        ∃ iv s, iv.length = 12 ∧ (∀ b ∈ iv, b < 256) ∧ (∀ b ∈ s, b < 256) ∧
          p.2 = JVal.vStr (b64urlEncode (iv ++ ctrXor (G.keystream key iv) s ++
            G.tag key iv (ctrXor (G.keystream key iv) s))) := by
      intro p hp
      obtain ⟨q, hq, hqe⟩ := List.mem_map.mp hp
      obtain ⟨j, s, hsb, hq2⟩ :=
        encLaunched_entries G tape key hk hkl object 0 hfields q hq
      by_cases hs : s = []
      · subst hs
        left
        rw [← hqe]
        show okD q.2 = JVal.vNull
        rw [hq2]
        simp [okD, encFieldValue, aesEncryptData]
      · right
        refine ⟨tape j, s, (htape j).1, (htape j).2, hsb, ?_⟩
        rw [← hqe]
        show okD q.2 = _
        rw [hq2]
        rw [show encFieldValue G (tape j) key s =
          JVal.vStr (b64urlEncode (tape j ++
            ctrXor (G.keystream key (tape j)) s ++
            G.tag key (tape j) (ctrXor (G.keystream key (tape j)) s))) by
          unfold encFieldValue
          rw [aesEncryptData_eq G (tape j) s key hs hk hkl]]
        rfl
    have hmprom : ∀ p ∈ (encLaunched G tape key 0 object).map
        (fun p => (p.1, okD p.2)), isPromise p.2 = false := by
      intro p hp
      cases hmfields p hp with
      | inl h => rw [h]; rfl
      | inr h =>
        obtain ⟨iv, s, _, _, _, h⟩ := h
        rw [h]
        rfl
    have hD := decLaunched_spec G key
      ((encLaunched G tape key 0 object).map (fun p => (p.1, okD p.2)))
      hmprom 0
    have hDkeys := decLaunched_keys G key
      ((encLaunched G tape key 0 object).map (fun p => (p.1, okD p.2)))
    have hDnodup : ((decLaunched G key
        ((encLaunched G tape key 0 object).map (fun p => (p.1, okD p.2)))).map
          Prod.fst).Nodup := by
      rw [hDkeys]; exact hmnodup
    have hDok := decLaunched_ok G key hk hkl
      ((encLaunched G tape key 0 object).map (fun p => (p.1, okD p.2)))
      hmfields
    have hmne : (encLaunched G tape key 0 object).map
        (fun p => (p.1, okD p.2)) ≠ [] := by
      intro h0
      exact hLne (List.map_eq_nil_iff.mp h0)
    have hDne : decLaunched G key
        ((encLaunched G tape key 0 object).map (fun p => (p.1, okD p.2))) ≠
        [] := by
      intro h0
      apply hmne
      rw [h0] at hDkeys
      exact (List.map_eq_nil_iff.mp hDkeys.symm)
    have hDlen : (decLaunched G key
        ((encLaunched G tape key 0 object).map
          (fun p => (p.1, okD p.2)))).length =
        ((encLaunched G tape key 0 object).map
          (fun p => (p.1, okD p.2))).length := by
      have h1 := congrArg List.length hDkeys
      simpa using h1
    refine ⟨(decLaunched G key ((encLaunched G tape key 0 object).map
      (fun p => (p.1, okD p.2)))).map (fun p => (p.1, okD p.2)), ?_, ?_⟩
    · unfold bulkAesDecrypt promiseAllRecord
      rw [hD, ← hDlen]
      exact runCallbacks_range_resolved _ hDnodup hDok hDne
    · exact List.mem_map_of_mem _
        (decLaunched_mem_null G key k0 _ hmmem)

/-- Witness for C10 at a concrete two-field record, one field holding the
empty string. -/
theorem bulkAes_empty_field_witness :
    (List.replicate 32 97 : List Nat) ≠ [] ∧
    (List.replicate 32 97 : List Nat).length = 32 ∧
    ("b", JVal.vStr []) ∈
      [("a", JVal.vStr [104]), ("b", JVal.vStr [])] ∧
    (([("a", JVal.vStr [104]), ("b", JVal.vStr [])].map Prod.fst)).Nodup ∧
    ∃ m, bulkAesEncrypt testGCM (fun _ => List.replicate 12 1)
        [("a", JVal.vStr [104]), ("b", JVal.vStr [])] (List.replicate 32 97)
        (List.range [("a", JVal.vStr [104]), ("b", JVal.vStr [])].length) =
        .resolved m ∧
      ("b", JVal.vNull) ∈ m ∧
      ∃ m2, bulkAesDecrypt testGCM m (List.replicate 32 97)
          (List.range m.length) = .resolved m2 ∧
        ("b", JVal.vNull) ∈ m2 :=
  ⟨by decide, by decide, by simp, by simp,
    bulkAes_empty_field testGCM (fun _ => List.replicate 12 1)
      [("a", JVal.vStr [104]), ("b", JVal.vStr [])] (List.replicate 32 97) "b"
      (by decide) (by decide)
      (by
        intro p hp
        cases List.mem_cons.mp hp with
        | inl h1 => exact ⟨[104], by rw [h1], by decide⟩
        | inr h1 =>
          cases List.mem_cons.mp h1 with
          | inl h2 => exact ⟨[], by rw [h2], by decide⟩
          | inr h2 => exact absurd h2 (by simp))
      (by simp) (by simp)
      (fun i =>
        ⟨show (List.replicate 12 1 : List Nat).length = 12 by decide,
         show ∀ b ∈ (List.replicate 12 1 : List Nat), b < 256 by decide⟩)⟩
